import Mathlib

/-!
Verification of the calibration-statistics core of pycalib's plotting module
(src/pycalib/plotting.py).

The numeric computations of the five functions `reliability_diagram`,
`confidence_diagram`, `over_underconfidence_curve`, `confidence_trajectories`
and `logsumexp_illustration` are shallowly embedded here.  Probabilities and
confidences are modelled as exact rationals (ℚ); class labels as naturals.
NumPy / SciPy primitives are modelled as follows:

* np.max / np.argmax / np.min along a row: `npMax`, `npArgmax`, `listMin`
  (argmax returns the index of the first occurrence of the maximum, as NumPy
  documents);
* np.linspace: `linspace`;
* the uniform binning shared by np.histogram and scipy.stats.binned_statistic
  (half-open bins, right-closed last bin, values outside the range assigned to
  no bin): `binIdx`;
* scipy.stats.binned_statistic(..., statistic="mean"): `binnedMean`
  (`none` models the NaN produced for an empty bin);
* float division by zero producing NaN rather than raising: normalisations
  are `Option ℚ` valued, with `none` modelling NaN.

The illustrative log-sum-exp curve is modelled over the reals.
-/

/-- Model of np.max over a one-dimensional array (junk value 0 on []). -/
def npMax : List ℚ → ℚ
  | [] => 0
  | [x] => x
  | x :: y :: xs => max x (npMax (y :: xs))

/-- Model of np.argmax over a one-dimensional array: index of the first
occurrence of the maximum (junk value 0 on []). -/
def npArgmax : List ℚ → ℕ
  | [] => 0
  | [_] => 0
  | x :: y :: xs => if npMax (y :: xs) ≤ x then 0 else npArgmax (y :: xs) + 1

/-- Model of np.min over a one-dimensional array (junk value 0 on []). -/
def listMin : List ℚ → ℚ
  | [] => 0
  | [x] => x
  | x :: y :: xs => min x (listMin (y :: xs))

theorem le_npMax : ∀ (l : List ℚ), ∀ x ∈ l, x ≤ npMax l
  | [], x, hx => absurd hx (List.not_mem_nil x)
  | [a], x, hx => by
      rcases List.mem_singleton.mp hx with rfl
      simp [npMax]
  | a :: b :: xs, x, hx => by
      rcases List.mem_cons.mp hx with rfl | hx
      · simp [npMax]
      · exact le_trans (le_npMax (b :: xs) x hx) (by simp [npMax])

theorem npMax_mem : ∀ (l : List ℚ), l ≠ [] → npMax l ∈ l
  | [], h => absurd rfl h
  | [a], _ => by simp [npMax]
  | a :: b :: xs, _ => by
      rcases le_total (npMax (b :: xs)) a with h | h
      · simp [npMax, max_eq_left h]
      · have : npMax (a :: b :: xs) = npMax (b :: xs) := by
          simp [npMax, max_eq_right h]
        rw [this]
        exact List.mem_cons_of_mem a (npMax_mem (b :: xs) (by simp))

theorem listMin_le : ∀ (l : List ℚ), ∀ x ∈ l, listMin l ≤ x
  | [], x, hx => absurd hx (List.not_mem_nil x)
  | [a], x, hx => by
      rcases List.mem_singleton.mp hx with rfl
      simp [listMin]
  | a :: b :: xs, x, hx => by
      rcases List.mem_cons.mp hx with rfl | hx
      · simp [listMin]
      · exact le_trans (by simp [listMin]) (listMin_le (b :: xs) x hx)

theorem listMin_mem : ∀ (l : List ℚ), l ≠ [] → listMin l ∈ l
  | [], h => absurd rfl h
  | [a], _ => by simp [listMin]
  | a :: b :: xs, _ => by
      rcases le_total a (listMin (b :: xs)) with h | h
      · simp [listMin, min_eq_left h]
      · have : listMin (a :: b :: xs) = listMin (b :: xs) := by
          simp [listMin, min_eq_right h]
        rw [this]
        exact List.mem_cons_of_mem a (listMin_mem (b :: xs) (by simp))

/-- The element at the argmax index is the maximum (for any nonempty list). -/
theorem get?_npArgmax : ∀ (l : List ℚ), l ≠ [] → l.get? (npArgmax l) = some (npMax l)
  | [], h => absurd rfl h
  | [a], _ => by simp [npArgmax, npMax]
  | a :: b :: xs, _ => by
      by_cases h : npMax (b :: xs) ≤ a
      · simp [npArgmax, npMax, h, max_eq_left h]
      · have hlt : a < npMax (b :: xs) := lt_of_not_le h
        have : npArgmax (a :: b :: xs) = npArgmax (b :: xs) + 1 := by
          simp [npArgmax, h]
        rw [this]
        have hmax : npMax (a :: b :: xs) = npMax (b :: xs) := by
          simp [npMax, max_eq_right (le_of_lt hlt)]
        rw [hmax]
        simpa using get?_npArgmax (b :: xs) (by simp)

/-- For a sorted nonempty list the head is the minimum. -/
theorem sorted_headI_eq_listMin (l : List ℚ) (hne : l ≠ [])
    (hs : List.Sorted (· ≤ ·) l) : l.headI = listMin l := by
  match l, hne with
  | a :: xs, _ =>
    have h1 : listMin (a :: xs) ≤ a := listMin_le _ a (by simp)
    have h2 : a ≤ listMin (a :: xs) := by
      rcases List.mem_cons.mp (listMin_mem (a :: xs) (by simp)) with h | h
      · exact le_of_eq h.symm
      · exact (List.sorted_cons.mp hs).1 _ h
    simpa using le_antisymm h2 h1

/-- On a sorted list, the first occurrence of the maximum sits right after all
the strictly smaller elements: np.argmax equals the number of elements that
are strictly below the maximum. -/
theorem npArgmax_sorted_count : ∀ (l : List ℚ), l ≠ [] → List.Sorted (· ≤ ·) l →
    npArgmax l = (l.filter (fun x => x < npMax l)).length
  | [], h, _ => absurd rfl h
  | [a], _, _ => by simp [npArgmax, npMax]
  | a :: b :: xs, _, hs => by
      have hab : ∀ x ∈ b :: xs, a ≤ x := (List.sorted_cons.mp hs).1
      have hs' : List.Sorted (· ≤ ·) (b :: xs) := (List.sorted_cons.mp hs).2
      have haM : a ≤ npMax (b :: xs) :=
        le_trans (hab b (by simp)) (le_npMax (b :: xs) b (by simp))
      have hmax : npMax (a :: b :: xs) = npMax (b :: xs) := by
        simp [npMax, max_eq_right haM]
      by_cases h : npMax (b :: xs) ≤ a
      · -- the head already attains the maximum; no element is strictly below it
        have haeq : a = npMax (b :: xs) := le_antisymm haM h
        have hnone : ∀ x ∈ a :: b :: xs, ¬ (x < npMax (a :: b :: xs)) := by
          intro x hx
          rw [hmax, ← haeq]
          rcases List.mem_cons.mp hx with rfl | hx
          · exact lt_irrefl x
          · exact not_lt_of_le (hab x hx)
        have : (a :: b :: xs).filter (fun x => x < npMax (a :: b :: xs)) = [] := by
          rw [List.filter_eq_nil]
          intro x hx
          simpa using hnone x hx
        simp [npArgmax, h, this]
      · -- the head is strictly below the maximum of the tail
        have halt : a < npMax (b :: xs) := lt_of_not_le h
        have hfilter :
            (a :: b :: xs).filter (fun x => x < npMax (a :: b :: xs)) =
              a :: (b :: xs).filter (fun x => x < npMax (b :: xs)) := by
          rw [hmax]
          simp [List.filter_cons, halt]
        rw [hfilter]
        have ih := npArgmax_sorted_count (b :: xs) (by simp) hs'
        simp [npArgmax, h, ih]

/-- On a sorted list the elements strictly below the maximum form the prefix
preceding the first occurrence of the maximum. -/
theorem sorted_take_filter_lt_max : ∀ (l : List ℚ), l ≠ [] → List.Sorted (· ≤ ·) l →
    l.take ((l.filter (fun x => x < npMax l)).length) = l.filter (fun x => x < npMax l)
  | [], h, _ => absurd rfl h
  | [a], _, _ => by simp [npMax]
  | a :: b :: xs, _, hs => by
      have hab : ∀ x ∈ b :: xs, a ≤ x := (List.sorted_cons.mp hs).1
      have hs' : List.Sorted (· ≤ ·) (b :: xs) := (List.sorted_cons.mp hs).2
      have haM : a ≤ npMax (b :: xs) :=
        le_trans (hab b (by simp)) (le_npMax (b :: xs) b (by simp))
      have hmax : npMax (a :: b :: xs) = npMax (b :: xs) := by
        simp [npMax, max_eq_right haM]
      by_cases h : npMax (b :: xs) ≤ a
      · have haeq : a = npMax (b :: xs) := le_antisymm haM h
        have : (a :: b :: xs).filter (fun x => x < npMax (a :: b :: xs)) = [] := by
          rw [List.filter_eq_nil]
          intro x hx
          rw [hmax, ← haeq]
          rcases List.mem_cons.mp hx with rfl | hx
          · simp
          · simpa using not_lt_of_le (hab x hx)
        simp [this]
      · have halt : a < npMax (b :: xs) := lt_of_not_le h
        have hfilter :
            (a :: b :: xs).filter (fun x => x < npMax (a :: b :: xs)) =
              a :: (b :: xs).filter (fun x => x < npMax (b :: xs)) := by
          rw [hmax]
          simp [List.filter_cons, halt]
        rw [hfilter]
        have ih := sorted_take_filter_lt_max (b :: xs) (by simp) hs'
        simp [ih]

/-- On a sorted list, the elements that satisfy a ≤-threshold form a prefix:
taking the first k elements, k at most the filter's length, yields the same
as taking k elements of the filtered list. -/
theorem sorted_take_filter_le (t : ℚ) : ∀ (l : List ℚ), List.Sorted (· ≤ ·) l →
    ∀ n, n ≤ ((l.filter (fun x => x ≤ t)).length) →
    l.take n = (l.filter (fun x => x ≤ t)).take n
  | [], _, n, _ => by simp
  | a :: xs, hs, n, hn => by
      have hax : ∀ x ∈ xs, a ≤ x := (List.sorted_cons.mp hs).1
      have hs' : List.Sorted (· ≤ ·) xs := (List.sorted_cons.mp hs).2
      by_cases h : a ≤ t
      · match n, hn with
        | 0, _ => simp
        | Nat.succ m, hn =>
          have hlen : m ≤ ((xs.filter (fun x => x ≤ t)).length) := by
            have : (a :: xs).filter (fun x => x ≤ t) =
                a :: xs.filter (fun x => x ≤ t) := by simp [List.filter_cons, h]
            rw [this] at hn
            simpa using Nat.succ_le_succ_iff.mp hn
          have ih := sorted_take_filter_le t xs hs' m hlen
          simp [List.filter_cons, h, List.take_succ_cons, ih]
      · -- the head exceeds the threshold, hence so does every element
        have : (a :: xs).filter (fun x => x ≤ t) = [] := by
          rw [List.filter_eq_nil]
          intro x hx
          rcases List.mem_cons.mp hx with rfl | hx
          · simpa using h
          · have : t < x := lt_of_lt_of_le (lt_of_not_le h) (hax x hx)
            simpa using not_le_of_lt this
        rw [this] at hn ⊢
        simpa using Nat.le_zero.mp (by simpa using hn)

/-- Model of np.linspace(a, b, m): m evenly spaced points from a to b
inclusive (np.linspace(a, b, 1) = [a]). -/
def linspace (a b : ℚ) (m : ℕ) : List ℚ :=
  (List.range m).map
    (fun i : ℕ => if m = 1 then a else a + (i : ℚ) * (b - a) / ((m : ℚ) - 1))

theorem linspace_length (a b : ℚ) (m : ℕ) : (linspace a b m).length = m := by
  simp [linspace]

theorem linspace_pairwise (a b : ℚ) (m : ℕ) (hab : a < b) :
    List.Pairwise (· < ·) (linspace a b m) := by
  match m with
  | 0 => simp [linspace]
  | 1 => simp [linspace]
  | k + 2 =>
    rw [linspace]
    rw [List.pairwise_map]
    refine (List.pairwise_lt_range (k + 2)).imp ?_
    intro i j hij
    have hm : ¬ (k + 2 = 1) := by omega
    simp only [if_neg hm]
    have hd : (0:ℚ) < (b - a) / (((k + 2 : ℕ) : ℚ) - 1) := by
      apply div_pos (by linarith)
      push_cast
      linarith
    have : (i : ℚ) < (j : ℚ) := by exact_mod_cast hij
    calc a + (i:ℚ) * (b - a) / (((k + 2 : ℕ) : ℚ) - 1)
        = a + (i:ℚ) * ((b - a) / (((k + 2 : ℕ) : ℚ) - 1)) := by ring
      _ < a + (j:ℚ) * ((b - a) / (((k + 2 : ℕ) : ℚ) - 1)) := by
          have := mul_lt_mul_of_pos_right this hd
          linarith
      _ = a + (j:ℚ) * (b - a) / (((k + 2 : ℕ) : ℚ) - 1) := by ring

theorem linspace_headI (a b : ℚ) (m : ℕ) (hm : 2 ≤ m) :
    (linspace a b m).headI = a := by
  match m, hm with
  | k + 2, _ =>
    have hm1 : ¬ (k + 2 = 1) := by omega
    rw [linspace, List.range_succ_eq_map]
    simp [hm1]

/-- The i-th edge of the equal-width partition of [lo, hi] into n bins. -/
def binEdge (lo hi : ℚ) (n i : ℕ) : ℚ := lo + i * (hi - lo) / n

/-- Bin index assigned to a value x by the uniform binning of [lo, hi] into n
bins that np.histogram and scipy.stats.binned_statistic share: bin i covers
[edge i, edge (i+1)), the last bin additionally contains hi, and values
outside [lo, hi] belong to no bin. -/
def binIdx (lo hi : ℚ) (n : ℕ) (x : ℚ) : Option ℕ :=
  if 0 < n ∧ lo < hi ∧ lo ≤ x ∧ x ≤ hi then
    some (min (n - 1) (Int.toNat ⌊(x - lo) * n / (hi - lo)⌋))
  else none

/-- Membership of x in the i-th bin of the equal-width partition of [lo, hi]
into n bins, described through the bin edges. -/
def inBin (lo hi : ℚ) (n i : ℕ) (x : ℚ) : Bool :=
  decide (binEdge lo hi n i ≤ x) &&
    (if i + 1 = n then decide (x ≤ hi) else decide (x < binEdge lo hi n (i + 1)))

theorem inBin_iff (lo hi : ℚ) (n i : ℕ) (x : ℚ) :
    inBin lo hi n i x = true ↔
      (binEdge lo hi n i ≤ x ∧
        (if i + 1 = n then x ≤ hi else x < binEdge lo hi n (i + 1))) := by
  by_cases h : i + 1 = n <;> simp [inBin, h]

theorem binEdge_le_iff (lo hi : ℚ) (n : ℕ) (x : ℚ) (k : ℕ)
    (hn : 0 < n) (hlh : lo < hi) :
    binEdge lo hi n k ≤ x ↔ (k : ℚ) ≤ (x - lo) * n / (hi - lo) := by
  have hw : (0:ℚ) < hi - lo := by linarith
  have hnq : (0:ℚ) < (n : ℚ) := by exact_mod_cast hn
  rw [binEdge]
  constructor
  · intro h
    rw [le_div_iff hw, ← div_le_iff hnq]
    linarith
  · intro h
    rw [le_div_iff hw, ← div_le_iff hnq] at h
    linarith

theorem lt_binEdge_iff (lo hi : ℚ) (n : ℕ) (x : ℚ) (k : ℕ)
    (hn : 0 < n) (hlh : lo < hi) :
    x < binEdge lo hi n k ↔ (x - lo) * n / (hi - lo) < (k : ℚ) := by
  rw [← not_le, ← not_le, not_iff_not]
  exact binEdge_le_iff lo hi n x k hn hlh

/-- Characterisation of the computed bin index through the bin edges: the
index function assigns x to bin i exactly when x lies in the i-th bin of the
equal-width partition. -/
theorem binIdx_eq_some_iff (lo hi : ℚ) (n : ℕ) (x : ℚ) (i : ℕ)
    (hn : 0 < n) (hlh : lo < hi) :
    binIdx lo hi n x = some i ↔ (i < n ∧ inBin lo hi n i x = true) := by
  have hw : (0:ℚ) < hi - lo := by linarith
  have hnq : (0:ℚ) < (n : ℚ) := by exact_mod_cast hn
  constructor
  · intro h
    rw [binIdx] at h
    split_ifs at h with hg
    · obtain ⟨-, -, hx0, hx1⟩ := hg
      have hq0 : (0:ℚ) ≤ (x - lo) * n / (hi - lo) := by
        apply div_nonneg _ (le_of_lt hw)
        exact mul_nonneg (by linarith) (le_of_lt hnq)
      have hfl0 : 0 ≤ ⌊(x - lo) * (n:ℚ) / (hi - lo)⌋ := Int.floor_nonneg.mpr hq0
      have hcast : ((Int.toNat ⌊(x - lo) * (n:ℚ) / (hi - lo)⌋ : ℕ) : ℚ) =
          ((⌊(x - lo) * (n:ℚ) / (hi - lo)⌋ : ℤ) : ℚ) := by
        exact_mod_cast congrArg (fun z : ℤ => (z : ℚ)) (Int.toNat_of_nonneg hfl0)
      have hFq : ((Int.toNat ⌊(x - lo) * (n:ℚ) / (hi - lo)⌋ : ℕ) : ℚ) ≤
          (x - lo) * n / (hi - lo) := by
        rw [hcast]
        exact Int.floor_le _
      have hqF : (x - lo) * (n:ℚ) / (hi - lo) <
          ((Int.toNat ⌊(x - lo) * (n:ℚ) / (hi - lo)⌋ : ℕ) : ℚ) + 1 := by
        rw [hcast]
        exact Int.lt_floor_add_one _
      generalize hFdef : Int.toNat ⌊(x - lo) * (n:ℚ) / (hi - lo)⌋ = F at h hFq hqF
      have hmin : i = min (n - 1) F := (Option.some_inj.mp h).symm
      by_cases hcase : F ≤ n - 1
      · have hieq : i = F := by omega
        rw [hieq]
        refine ⟨by omega, ?_⟩
        rw [inBin_iff]
        refine ⟨(binEdge_le_iff lo hi n x F hn hlh).mpr hFq, ?_⟩
        split_ifs with hlast
        · exact hx1
        · refine (lt_binEdge_iff lo hi n x (F + 1) hn hlh).mpr ?_
          push_cast
          linarith
      · have hieq : i = n - 1 := by omega
        rw [hieq]
        refine ⟨by omega, ?_⟩
        rw [inBin_iff]
        have hnF : (n : ℚ) ≤ (F : ℚ) := by exact_mod_cast (by omega : n ≤ F)
        have hlower : ((n - 1 : ℕ) : ℚ) ≤ (x - lo) * n / (hi - lo) := by
          have hc : ((n - 1 : ℕ) : ℚ) = (n : ℚ) - 1 := by
            push_cast [Nat.cast_sub hn]
            ring
          rw [hc]
          linarith
        refine ⟨(binEdge_le_iff lo hi n x (n - 1) hn hlh).mpr hlower, ?_⟩
        have hsucc : (n - 1) + 1 = n := by omega
        simp [hsucc, hx1]
  · rintro ⟨hin, hbin⟩
    rw [inBin_iff] at hbin
    obtain ⟨hlower, hupper⟩ := hbin
    have hiq : (i : ℚ) ≤ (x - lo) * n / (hi - lo) :=
      (binEdge_le_iff lo hi n x i hn hlh).mp hlower
    have hx0 : lo ≤ x := by
      have h0 : (0:ℚ) ≤ (i : ℚ) * (hi - lo) / n := by
        apply div_nonneg _ (le_of_lt hnq)
        exact mul_nonneg (Nat.cast_nonneg i) (le_of_lt hw)
      have h1 := hlower
      rw [binEdge] at h1
      linarith
    have hx1 : x ≤ hi := by
      by_cases hlast : i + 1 = n
      · rw [if_pos hlast] at hupper
        exact hupper
      · rw [if_neg hlast] at hupper
        have hqn : (x - lo) * n / (hi - lo) < ((i + 1 : ℕ) : ℚ) :=
          (lt_binEdge_iff lo hi n x (i + 1) hn hlh).mp hupper
        have hi1n : ((i + 1 : ℕ) : ℚ) ≤ (n : ℚ) := by
          exact_mod_cast (by omega : i + 1 ≤ n)
        have hqlt : (x - lo) * n / (hi - lo) ≤ (n : ℚ) := by linarith
        rw [div_le_iff hw] at hqlt
        have : (x - lo) * (n:ℚ) ≤ (hi - lo) * n := by linarith [hqlt]
        have hxl : x - lo ≤ hi - lo := by
          have := le_of_mul_le_mul_right (by linarith [this] : (x - lo) * (n:ℚ) ≤ (hi - lo) * (n:ℚ)) hnq
          exact this
        linarith
    have hle_floor : (i : ℤ) ≤ ⌊(x - lo) * (n:ℚ) / (hi - lo)⌋ :=
      Int.le_floor.mpr (by exact_mod_cast hiq)
    have hmin : min (n - 1) (Int.toNat ⌊(x - lo) * (n:ℚ) / (hi - lo)⌋) = i := by
      by_cases hlast : i + 1 = n
      · omega
      · rw [if_neg hlast] at hupper
        have hqi1 : (x - lo) * n / (hi - lo) < ((i + 1 : ℕ) : ℚ) :=
          (lt_binEdge_iff lo hi n x (i + 1) hn hlh).mp hupper
        have hfl : ⌊(x - lo) * (n:ℚ) / (hi - lo)⌋ < ((i + 1 : ℕ) : ℤ) :=
          Int.floor_lt.mpr (by exact_mod_cast hqi1)
        omega
    rw [binIdx, if_pos ⟨hn, hlh, hx0, hx1⟩, hmin]

theorem binIdx_lt (lo hi : ℚ) (n : ℕ) (x : ℚ) (j : ℕ)
    (h : binIdx lo hi n x = some j) : j < n := by
  rw [binIdx] at h
  split_ifs at h with hg
  have hj : j = min (n - 1) (Int.toNat ⌊(x - lo) * (n:ℚ) / (hi - lo)⌋) :=
    (Option.some_inj.mp h).symm
  omega

theorem binIdx_isSome (lo hi : ℚ) (n : ℕ) (x : ℚ)
    (hn : 0 < n) (hlh : lo < hi) (hx0 : lo ≤ x) (hx1 : x ≤ hi) :
    (binIdx lo hi n x).isSome = true := by
  rw [binIdx, if_pos ⟨hn, hlh, hx0, hx1⟩]
  rfl

theorem binIdx_none_of_out (lo hi : ℚ) (n : ℕ) (x : ℚ)
    (h : x < lo ∨ hi < x) : binIdx lo hi n x = none := by
  rw [binIdx]
  rcases h with h | h
  · rw [if_neg]
    rintro ⟨-, -, h1, -⟩
    linarith
  · rw [if_neg]
    rintro ⟨-, -, -, h2⟩
    linarith

/-!
Embedding of reliability_diagram (src/pycalib/plotting.py, lines 52-89).
-/

/-- Line 57: y_pred = np.argmax(p_pred, axis=1). -/
def yPredList (p_pred : List (List ℚ)) : List ℕ := p_pred.map npArgmax

/-- Line 58: p_max = np.max(p_pred, axis=1). -/
def pMaxList (p_pred : List (List ℚ)) : List ℚ := p_pred.map npMax

/-- Line 72: np.equal(y_pred, y).astype(int), the correctness indicator. -/
def correctIndicator (y y_pred : List ℕ) : List ℚ :=
  (y_pred.zip y).map (fun p => if p.1 = p.2 then (1:ℚ) else 0)

/-- Lines 71-74: scipy.stats.binned_statistic(p_max, values, bins=n,
range=xlim)[0] at bin i, with statistic="mean".  `none` models the NaN that
scipy returns for a bin containing no samples. -/
def binnedMean (lo hi : ℚ) (n : ℕ) (xs vals : List ℚ) (i : ℕ) : Option ℚ :=
  let sel := (xs.zip vals).filter (fun p => binIdx lo hi n p.1 = some i)
  if sel.length = 0 then none
  else some ((sel.map Prod.snd).sum / (sel.length : ℚ))

/-- Line 70: bin_means = np.linspace(xlim[0] + xlim[1] / (2 * n_bins),
xlim[1] - xlim[1] / (2 * n_bins), n_bins), exactly as the source computes it. -/
def binMeansCode (lo hi : ℚ) (n : ℕ) : List ℚ :=
  linspace (lo + hi / (2 * n)) (hi - hi / (2 * n)) n

/-- Theoretical midpoint of the i-th bin of the equal-width partition of
[lo, hi] into n bins (what the spec asserts the empty-bin fallback to be). -/
def binMidpoint (lo hi : ℚ) (n i : ℕ) : ℚ := lo + ((i : ℚ) + 1/2) * (hi - lo) / n

/-- Line 75: empirical_acc[np.isnan(empirical_acc)] =
bin_means[np.isnan(empirical_acc)] — empty bins receive the bin_means value. -/
def empiricalAccFilled (lo hi : ℚ) (n : ℕ) (xs vals : List ℚ) : List ℚ :=
  (List.range n).map (fun i =>
    match binnedMean lo hi n xs vals i with
    | none => (binMeansCode lo hi n).getD i 0
    | some v => v)

/-- Lines 53-55: the default x-axis limits of reliability_diagram, taken as
[1 / n_classes, 1] with n_classes the number of unique labels when the caller
supplies none. -/
def reliability_xlim (y : List ℕ) (xlim : Option (ℚ × ℚ)) : ℚ × ℚ :=
  match xlim with
  | some v => v
  | none => (1 / ((y.dedup.length : ℚ)), 1)

/-- Lines 88-89: hist = np.histogram(p_max, bins=bins)[0] followed by the
normalisation hist / np.sum(hist); the edges are linspace(lo, hi, n+1), hence
n uniform bins.  A zero total makes every entry 0/0, modelled as `none`. -/
def reliabilityHistFrac (lo hi : ℚ) (n : ℕ) (p_pred : List (List ℚ)) :
    List (Option ℚ) :=
  let h := (List.range n).map
    (fun i => ((pMaxList p_pred).filter (fun x => binIdx lo hi n x = some i)).length)
  h.map (fun c : ℕ => if h.sum = 0 then none else some ((c : ℚ) / (h.sum : ℚ)))

/-!
Embedding of confidence_diagram (lines 130-155) and of the numeric core of
over_underconfidence_curve (lines 194-209).
-/

/-- Lines 131-132 and 231-232: n_classes defaults to len(np.unique(y)). -/
def nClassesOf (y : List ℕ) (n_classes : Option ℕ) : ℕ :=
  match n_classes with
  | some k => k
  | none => y.dedup.length

/-- Line 138: the histogram edges of confidence_diagram,
np.linspace(0, 1, n_bins + 1). -/
def confidenceDiagramBins (n_bins : ℕ) : List ℚ := linspace 0 1 (n_bins + 1)

/-- Lines 142-151: the plotting range [1 / n_classes, 1] of both
confidence_diagram histograms. -/
def confidence_diagram_range (y : List ℕ) (n_classes : Option ℕ) : ℚ × ℚ :=
  (1 / ((nClassesOf y n_classes : ℕ) : ℚ), 1)

/-- Line 61: the bin edges of reliability_diagram,
np.linspace(xlim[0], xlim[1], n_bins + 1). -/
def reliabilityBins (lo hi : ℚ) (n_bins : ℕ) : List ℚ := linspace lo hi (n_bins + 1)

/-- Line 203: the bin edges of over_underconfidence_curve,
np.linspace(0, 1, n_bins) — note: n_bins points, not n_bins + 1. -/
def overUnderBins (n_bins : ℕ) : List ℚ := linspace 0 1 n_bins

/-- Line 195: pred_correct = np.equal(y, y_pred), elementwise. -/
def predCorrect (y y_pred : List ℕ) : List Bool :=
  (y.zip y_pred).map (fun p => p.1 == p.2)

/-- Boolean-mask selection a[mask], as used on lines 199-200. -/
def maskSelect (xs : List ℚ) (mask : List Bool) : List ℚ :=
  ((xs.zip mask).filter (fun p => p.2)).map Prod.fst

/-- Line 200: conf_false = p_max[np.invert(pred_correct)]. -/
def confFalseOf (y y_pred : List ℕ) (p_pred : List (List ℚ)) : List ℚ :=
  maskSelect (pMaxList p_pred) ((predCorrect y y_pred).map (fun b => !b))

/-- Line 199: conf_correct = p_max[pred_correct]. -/
def confCorrectOf (y y_pred : List ℕ) (p_pred : List (List ℚ)) : List ℚ :=
  maskSelect (pMaxList p_pred) (predCorrect y y_pred)

/-- np.histogram(xs, bins=edges)[0] for the m uniform bins partitioning
[lo, hi]: the count per bin. -/
def histCounts (lo hi : ℚ) (m : ℕ) (xs : List ℚ) : List ℕ :=
  (List.range m).map (fun i => (xs.filter (fun x => binIdx lo hi m x = some i)).length)

/-- np.cumsum of a count array. -/
def cumsumN (l : List ℕ) : List ℕ :=
  (List.range l.length).map (fun i => (l.take (i + 1)).sum)

/-- Lines 206 and 209: np.cumsum(hist) / np.sum(hist).  When the total is
zero the float division yields NaN in every position, modelled as `none`. -/
def cumNormalize (counts : List ℕ) : List (Option ℚ) :=
  (cumsumN counts).map
    (fun s : ℕ => if counts.sum = 0 then none else some ((s : ℚ) / (counts.sum : ℚ)))

/-- Lines 203-206: the cumulative curve over the false-prediction confidences;
the n_bins edges of line 203 delimit n_bins - 1 uniform bins of [0, 1]. -/
def confFalseCumOf (y y_pred : List ℕ) (p_pred : List (List ℚ)) (n_bins : ℕ) :
    List (Option ℚ) :=
  cumNormalize (histCounts 0 1 (n_bins - 1) (confFalseOf y y_pred p_pred))

/-- Lines 208-209: the cumulative curve over the correct-prediction
confidences. -/
def confCorrectCumOf (y y_pred : List ℕ) (p_pred : List (List ℚ)) (n_bins : ℕ) :
    List (Option ℚ) :=
  cumNormalize (histCounts 0 1 (n_bins - 1) (confCorrectOf y y_pred p_pred))

/-!
Embedding of the numeric core of confidence_trajectories (lines 230-259).
-/

/-- Lines 245-249: the helper of confidence_trajectories.  np.argmax of the
empty selection would raise; the guard returns 0 when every element exceeds
the threshold. -/
def index_of_max_element_below_thresh (elements : List ℚ) (threshold : ℚ) : ℕ :=
  if listMin elements > threshold then 0
  else npArgmax (elements.filter (fun x => x ≤ threshold))

/-- Line 256: cummean = lambda x: x.cumsum() / np.arange(1, len(x) + 1). -/
def cummean (x : List ℚ) : List ℚ :=
  (List.range x.length).map (fun i => (x.take (i + 1)).sum / ((i : ℚ) + 1))

/-- Lines 258-259: the trajectory value cummean(conf)[index_of_max_element_
below_thresh(conf, t)] for one sorted confidence array and one threshold. -/
def avgConfAt (conf : List ℚ) (t : ℚ) : ℚ :=
  (cummean conf).getD (index_of_max_element_below_thresh conf t) 0

/-- The quantity claimed by the spec: the arithmetic mean of all confidences
that are at most the threshold, duplicates included. -/
def meanOfAllBelowThresh (conf : List ℚ) (t : ℚ) : ℚ :=
  ((conf.filter (fun x => x ≤ t)).sum) / (((conf.filter (fun x => x ≤ t)).length : ℚ))

/-- Line 251: conf_thresholds = np.linspace(1 / n_classes, 1, n_thresh_steps). -/
def conf_thresholds (y : List ℕ) (n_classes : Option ℕ) (n_thresh_steps : ℕ) :
    List ℚ :=
  linspace (1 / ((nClassesOf y n_classes : ℕ) : ℚ)) 1 n_thresh_steps

theorem sum_indicator_range (m j : ℕ) (hj : j < m) (g : ℕ → ℕ) :
    ((List.range m).map (fun i => (if j = i then 1 else 0) + g i)).sum
      = 1 + ((List.range m).map g).sum := by
  induction m with
  | zero => omega
  | succ k ih =>
    rw [List.range_succ, List.map_append, List.map_append, List.sum_append,
      List.sum_append]
    by_cases h : j = k
    · subst h
      have hcong : (List.range j).map (fun i => (if j = i then 1 else 0) + g i)
          = (List.range j).map g := by
        apply List.map_congr_left
        intro a ha
        have : a < j := List.mem_range.mp ha
        have : ¬ (j = a) := by omega
        simp [this]
      rw [hcong]
      simp
      omega
    · have hjk : j < k := by omega
      rw [ih hjk]
      simp [h]
      omega

theorem sum_map_range_opt (m : ℕ) (g : ℕ → ℕ) (o : Option ℕ)
    (ho : ∀ j, o = some j → j < m) :
    ((List.range m).map (fun i => (if o = some i then 1 else 0) + g i)).sum
      = (if o.isSome then 1 else 0) + ((List.range m).map g).sum := by
  match o with
  | none => simp
  | some j =>
    have hj : j < m := ho j rfl
    have hcong : (List.range m).map (fun i => (if some j = some i then 1 else 0) + g i)
        = (List.range m).map (fun i => (if j = i then 1 else 0) + g i) := by
      apply List.map_congr_left
      intro a _
      simp
    rw [hcong, sum_indicator_range m j hj g]
    simp

/-- The histogram counts total the number of values assigned to some bin. -/
theorem histCounts_sum (lo hi : ℚ) (m : ℕ) :
    ∀ xs : List ℚ, (histCounts lo hi m xs).sum
      = (xs.filter (fun x => (binIdx lo hi m x).isSome)).length := by
  intro xs
  induction xs with
  | nil => simp [histCounts]
  | cons x xs ih =>
    have hstep : histCounts lo hi m (x :: xs)
        = (List.range m).map (fun i =>
            (if binIdx lo hi m x = some i then 1 else 0)
              + (xs.filter (fun v => binIdx lo hi m v = some i)).length) := by
      apply List.map_congr_left
      intro a _
      rw [List.filter_cons]
      by_cases h : binIdx lo hi m x = some a
      · simp [h]
        omega
      · simp [h]
    rw [hstep, sum_map_range_opt m _ (binIdx lo hi m x) (fun j hj => binIdx_lt lo hi m x j hj)]
    have hunfold : ((List.range m).map
        (fun i => (xs.filter (fun v => binIdx lo hi m v = some i)).length)).sum
        = (histCounts lo hi m xs).sum := rfl
    rw [hunfold, ih, List.filter_cons]
    by_cases h : (binIdx lo hi m x).isSome
    · simp [h]
      omega
    · simp [h]

theorem sum_take_mono (l : List ℕ) (i j : ℕ) (h : i ≤ j) :
    (l.take i).sum ≤ (l.take j).sum := by
  have h1 : (l.take j).take i = l.take i := by
    rw [List.take_take, Nat.min_eq_left h]
  have h2 := List.sum_take_add_sum_drop (l.take j) i
  rw [h1] at h2
  omega

theorem cumsumN_chain (l : List ℕ) : List.Chain' (· ≤ ·) (cumsumN l) := by
  rw [cumsumN, List.chain'_map]
  match h : l.length with
  | 0 => simp
  | k + 1 =>
    rw [List.chain'_range_succ]
    intro m _
    exact sum_take_mono l (m + 1) (m + 2) (by omega)

theorem cumsumN_getLast (l : List ℕ) (h : l ≠ []) :
    (cumsumN l).getLast? = some l.sum := by
  have hlen : 0 < l.length := List.length_pos.mpr h
  have hlen2 : (cumsumN l).length = l.length := by simp [cumsumN]
  rw [List.getLast?_eq_getElem?, hlen2]
  rw [cumsumN]
  rw [List.getElem?_map]
  rw [List.getElem?_range (by omega : l.length - 1 < l.length)]
  have : l.length - 1 + 1 = l.length := by omega
  simp [this]

/-- With a positive total, the normalised cumulative histogram is a genuine
(rational) non-decreasing sequence ending in 1. -/
theorem cumNormalize_pos (counts : List ℕ) (h : counts.sum ≠ 0) :
    ∃ l : List ℚ, cumNormalize counts = l.map some ∧ List.Chain' (· ≤ ·) l ∧
      l.getLast? = some 1 := by
  have hne : counts ≠ [] := by
    intro hc
    rw [hc] at h
    simp at h
  have hT : (0:ℚ) < (counts.sum : ℚ) := by
    exact_mod_cast Nat.pos_of_ne_zero h
  refine ⟨(cumsumN counts).map (fun s : ℕ => (s : ℚ) / (counts.sum : ℚ)), ?_, ?_, ?_⟩
  · rw [cumNormalize, List.map_map]
    apply List.map_congr_left
    intro s _
    simp [if_neg h]
  · rw [List.chain'_map]
    refine List.Chain'.imp ?_ (cumsumN_chain counts)
    intro a b hab
    exact div_le_div_of_nonneg_right (by exact_mod_cast hab) (le_of_lt hT)
  · rw [List.getLast?_map, cumsumN_getLast counts hne]
    simp only [Option.map_some']
    rw [div_self (ne_of_gt hT)]

theorem maskSelect_mem (xs : List ℚ) (mask : List Bool) :
    ∀ v ∈ maskSelect xs mask, v ∈ xs := by
  intro v hv
  rw [maskSelect] at hv
  obtain ⟨⟨a, b⟩, hp, rfl⟩ := List.mem_map.mp hv
  exact (List.of_mem_zip (List.mem_of_mem_filter hp)).1

/-- All values inside [0, 1] land in some of the m uniform bins of [0, 1], so
the histogram counts total the number of values. -/
theorem histCounts_sum_unit (m : ℕ) (hm : 0 < m) (xs : List ℚ)
    (hx : ∀ x ∈ xs, 0 ≤ x ∧ x ≤ 1) :
    (histCounts 0 1 m xs).sum = xs.length := by
  rw [histCounts_sum]
  have hfull : xs.filter (fun x => (binIdx 0 1 m x).isSome) = xs := by
    rw [List.filter_eq_self]
    intro a ha
    exact binIdx_isSome 0 1 m a hm (by norm_num) (hx a ha).1 (hx a ha).2
  rw [hfull]

/-!
Embedding of the smooth-maximum illustration (lines 301-302):
logsumexp(x, N) = 1 / N * np.log(np.sum(np.exp(N * x), axis=1)),
evaluated on the rows [1 - t, t] (lines 314, 319, 324).
-/

/-- Lines 301-302: the smooth-maximum function of logsumexp_illustration. -/
noncomputable def logsumexp (x : List ℝ) (N : ℝ) : ℝ :=
  1 / N * Real.log ((x.map (fun v => Real.exp (N * v))).sum)

/-- The curve drawn on lines 314, 319 and 324: logsumexp on the row
[1 - t, t] as a function of the sharpness parameter N. -/
noncomputable def lsecurve (t N : ℝ) : ℝ := logsumexp [1 - t, t] N

theorem lsecurve_eq (t N : ℝ) :
    lsecurve t N = 1 / N * Real.log (Real.exp (N * (1 - t)) + Real.exp (N * t)) := by
  simp [lsecurve, logsumexp]

theorem lsecurve_bounds (t N : ℝ) (hN : 0 < N) :
    max (1 - t) t ≤ lsecurve t N ∧
      lsecurve t N ≤ max (1 - t) t + Real.log 2 / N := by
  have hNne : N ≠ 0 := ne_of_gt hN
  set m := max (1 - t) t with hm
  set S := Real.exp (N * (1 - t)) + Real.exp (N * t) with hS
  have hSpos : 0 < S := by positivity
  have hlower : Real.exp (N * m) ≤ S := by
    rcases max_choice (1 - t) t with h | h
    · rw [← hm] at h
      rw [h]
      exact le_add_of_nonneg_right (le_of_lt (Real.exp_pos _))
    · rw [← hm] at h
      rw [h]
      exact le_add_of_nonneg_left (le_of_lt (Real.exp_pos _))
  have hupper : S ≤ 2 * Real.exp (N * m) := by
    have h1 : Real.exp (N * (1 - t)) ≤ Real.exp (N * m) :=
      Real.exp_le_exp.mpr (mul_le_mul_of_nonneg_left (le_max_left _ _) (le_of_lt hN))
    have h2 : Real.exp (N * t) ≤ Real.exp (N * m) :=
      Real.exp_le_exp.mpr (mul_le_mul_of_nonneg_left (le_max_right _ _) (le_of_lt hN))
    linarith
  have hlog_lower : N * m ≤ Real.log S :=
    (Real.le_log_iff_exp_le hSpos).mpr hlower
  have hlog_upper : Real.log S ≤ Real.log 2 + N * m := by
    have := Real.log_le_log hSpos hupper
    rwa [Real.log_mul (by norm_num) (Real.exp_ne_zero _), Real.log_exp] at this
  constructor
  · rw [lsecurve_eq, ← hS]
    have := mul_le_mul_of_nonneg_left hlog_lower (le_of_lt (by positivity : (0:ℝ) < 1 / N))
    calc m = 1 / N * (N * m) := by field_simp
      _ ≤ 1 / N * Real.log S := this
  · rw [lsecurve_eq, ← hS]
    have := mul_le_mul_of_nonneg_left hlog_upper (le_of_lt (by positivity : (0:ℝ) < 1 / N))
    calc 1 / N * Real.log S ≤ 1 / N * (Real.log 2 + N * m) := this
      _ = m + Real.log 2 / N := by field_simp; ring

/-- The smooth maximum converges, as the sharpness parameter grows, to the
true maximum of the two inputs 1 - t and t. -/
theorem lsecurve_tendsto_max (t : ℝ) :
    Filter.Tendsto (fun N => lsecurve t N) Filter.atTop
      (nhds (max (1 - t) t)) := by
  have hlow : ∀ᶠ N in Filter.atTop, max (1 - t) t ≤ lsecurve t N :=
    (Filter.eventually_gt_atTop 0).mono (fun N hN => (lsecurve_bounds t N hN).1)
  have hup : ∀ᶠ N in Filter.atTop,
      lsecurve t N ≤ max (1 - t) t + Real.log 2 / N :=
    (Filter.eventually_gt_atTop 0).mono (fun N hN => (lsecurve_bounds t N hN).2)
  have hdiv : Filter.Tendsto (fun N : ℝ => Real.log 2 / N) Filter.atTop (nhds 0) :=
    Filter.Tendsto.div_atTop tendsto_const_nhds Filter.tendsto_id
  have hupper_t : Filter.Tendsto (fun N : ℝ => max (1 - t) t + Real.log 2 / N)
      Filter.atTop (nhds (max (1 - t) t)) := by
    simpa using tendsto_const_nhds.add hdiv
  exact tendsto_of_tendsto_of_tendsto_of_le_of_le' tendsto_const_nhds hupper_t hlow hup

/-- The samples of one bin, described as the claim does: the pairs
(max-class probability, correctness indicator) whose first component falls in
the i-th bin of the equal-width partition. -/
def binSamples (lo hi : ℚ) (n i : ℕ) (xs vals : List ℚ) : List (ℚ × ℚ) :=
  (xs.zip vals).filter (fun p => inBin lo hi n i p.1)

theorem binnedMean_eq_binSamples (lo hi : ℚ) (n i : ℕ) (xs vals : List ℚ)
    (hn : 0 < n) (hlh : lo < hi) (hin : i < n) :
    (xs.zip vals).filter (fun p => binIdx lo hi n p.1 = some i)
      = binSamples lo hi n i xs vals := by
  rw [binSamples]
  apply List.filter_congr
  intro a _
  cases hbv : inBin lo hi n i a.1 with
  | true =>
    simp [(binIdx_eq_some_iff lo hi n a.1 i hn hlh).mpr ⟨hin, hbv⟩]
  | false =>
    have : ¬ binIdx lo hi n a.1 = some i := by
      intro hc
      have := ((binIdx_eq_some_iff lo hi n a.1 i hn hlh).mp hc).2
      rw [hbv] at this
      exact Bool.false_ne_true this
    simp [this]

/-- C1: in reliability_diagram, for every bin of the equal-width partition of
[xlim[0], xlim[1]] into n_bins bins that contains at least one sample, the
empirical accuracy computed by binned_statistic is the mean of the indicator
(argmax of the probability row = true label) over exactly the samples whose
max-class probability falls in that bin; values outside [xlim[0], xlim[1]]
are assigned to no bin. -/
theorem claim_C1_reliability_binned_accuracy
    (y : List ℕ) (p_pred : List (List ℚ)) (lo hi : ℚ) (n i : ℕ)
    (hn : 0 < n) (hlh : lo < hi) (hin : i < n) :
    (binSamples lo hi n i (pMaxList p_pred) (correctIndicator y (yPredList p_pred)) ≠ [] →
      binnedMean lo hi n (pMaxList p_pred) (correctIndicator y (yPredList p_pred)) i
        = some (((binSamples lo hi n i (pMaxList p_pred)
              (correctIndicator y (yPredList p_pred))).map Prod.snd).sum /
            ((binSamples lo hi n i (pMaxList p_pred)
              (correctIndicator y (yPredList p_pred))).length : ℚ)))
    ∧ (∀ x : ℚ, x < lo ∨ hi < x → binIdx lo hi n x = none) := by
  constructor
  · intro hne
    rw [binnedMean]
    simp only [binnedMean_eq_binSamples lo hi n i _ _ hn hlh hin]
    rw [if_neg (fun hc => hne (List.length_eq_zero.mp hc))]
  · intro x hx
    exact binIdx_none_of_out lo hi n x hx

theorem claim_C1_witness :
    ((0:ℕ) < 2 ∧ (1:ℚ)/2 < 1 ∧ (0:ℕ) < 2 ∧
      binSamples (1/2) 1 2 0 (pMaxList [[7/10, 3/10], [2/5, 3/5]])
        (correctIndicator [0, 1] (yPredList [[7/10, 3/10], [2/5, 3/5]])) ≠ []) ∧
    binnedMean (1/2) 1 2 (pMaxList [[7/10, 3/10], [2/5, 3/5]])
        (correctIndicator [0, 1] (yPredList [[7/10, 3/10], [2/5, 3/5]])) 0 = some 1 := by
  have hsamples : binSamples (1/2) 1 2 0 (pMaxList [[7/10, 3/10], [2/5, 3/5]])
      (correctIndicator [0, 1] (yPredList [[7/10, 3/10], [2/5, 3/5]]))
      = [(7/10, 1), (3/5, 1)] := by
    norm_num [binSamples, pMaxList, correctIndicator, yPredList, npMax, npArgmax,
      inBin, binEdge, List.filter_cons]
  refine ⟨⟨by norm_num, by norm_num, by norm_num, by rw [hsamples]; simp⟩, ?_⟩
  have h := (claim_C1_reliability_binned_accuracy [0, 1] [[7/10, 3/10], [2/5, 3/5]]
    (1/2) 1 2 0 (by norm_num) (by norm_num) (by norm_num)).1
    (by rw [hsamples]; simp)
  rw [h, hsamples]
  norm_num

/-- C2: the value substituted for an empty bin is bin_means[i], computed on
line 70 as linspace(xlim[0] + xlim[1]/(2 n), xlim[1] - xlim[1]/(2 n), n).
With xlim = [1/2, 1] and n_bins = 2 and both samples falling in bin 1, the
empty bin 0 receives 3/4 — not the theoretical midpoint 5/8 claimed by the
spec: the linspace endpoints drop xlim[0] from the half-width term, so they
agree with the true midpoints only when xlim[0] = 0. -/
theorem claim_C2_code_bug :
    binnedMean (1/2) 1 2 (pMaxList [[1/10, 9/10], [1/20, 19/20]])
        (correctIndicator [0, 1] (yPredList [[1/10, 9/10], [1/20, 19/20]])) 0 = none ∧
    binMeansCode (1/2) 1 2 = [3/4, 3/4] ∧
    empiricalAccFilled (1/2) 1 2 (pMaxList [[1/10, 9/10], [1/20, 19/20]])
        (correctIndicator [0, 1] (yPredList [[1/10, 9/10], [1/20, 19/20]]))
      = [3/4, 1/2] ∧
    binMidpoint (1/2) 1 2 0 = 5/8 ∧
    ((3:ℚ)/4) ≠ 5/8 := by
  have hpm : pMaxList [[1/10, 9/10], [1/20, 19/20]] = [9/10, 19/20] := by
    norm_num [pMaxList, npMax]
  have hyp : yPredList [[1/10, 9/10], [1/20, 19/20]] = [1, 1] := by
    norm_num [yPredList, npArgmax, npMax]
  have hci : correctIndicator [0, 1] [1, 1] = [0, 1] := by
    norm_num [correctIndicator]
  have hb0 : binIdx (1/2) 1 2 (9/10) = some 1 := by norm_num [binIdx]
  have hb1 : binIdx (1/2) 1 2 (19/20) = some 1 := by norm_num [binIdx]
  have hmean0 : binnedMean (1/2) 1 2 [9/10, 19/20] [0, 1] 0 = none := by
    norm_num [binnedMean, List.filter_cons, hb0, hb1]
  have hmean1 : binnedMean (1/2) 1 2 [9/10, 19/20] [0, 1] 1 = some (1/2) := by
    norm_num [binnedMean, List.filter_cons, hb0, hb1]
  have hbm : binMeansCode (1/2) 1 2 = [3/4, 3/4] := by
    norm_num [binMeansCode, linspace, List.range_succ]
  refine ⟨by rw [hpm, hyp, hci]; exact hmean0, hbm, ?_, by norm_num [binMidpoint],
    by norm_num⟩
  rw [hpm, hyp, hci, empiricalAccFilled]
  rw [show List.range 2 = [0, 1] by rfl]
  rw [List.map_cons, List.map_cons, List.map_nil, hmean0, hmean1, hbm]
  rfl

/-- C3 (counterexample): over_underconfidence_curve builds its bin-edge array
on line 203 as np.linspace(0, 1, n_bins), which has n_bins entries — not
n_bins + 1 as the claim asserts for all three functions. -/
theorem claim_C3_counterexample :
    (overUnderBins 3).length = 3 ∧ (3 : ℕ) ≠ 3 + 1 := by
  constructor
  · rw [overUnderBins, linspace_length]
  · decide

/-- C3 (amended): for n_bins ≥ 1 and a range with lower limit strictly below
upper limit, the edge sequences of reliability_diagram and confidence_diagram
have length n_bins + 1, while over_underconfidence_curve constructs only
n_bins edges; all three sequences are strictly increasing. -/
theorem claim_C3_bin_edges (n : ℕ) (lo hi : ℚ) (hn : 1 ≤ n) (hlh : lo < hi) :
    (reliabilityBins lo hi n).length = n + 1 ∧
    List.Pairwise (· < ·) (reliabilityBins lo hi n) ∧
    (confidenceDiagramBins n).length = n + 1 ∧
    List.Pairwise (· < ·) (confidenceDiagramBins n) ∧
    (overUnderBins n).length = n ∧
    List.Pairwise (· < ·) (overUnderBins n) := by
  refine ⟨by rw [reliabilityBins, linspace_length],
    linspace_pairwise lo hi (n + 1) hlh,
    by rw [confidenceDiagramBins, linspace_length],
    linspace_pairwise 0 1 (n + 1) (by norm_num),
    by rw [overUnderBins, linspace_length],
    linspace_pairwise 0 1 n (by norm_num)⟩

theorem claim_C3_witness :
    (1 ≤ 2 ∧ (0:ℚ) < 1) ∧
    ((reliabilityBins 0 1 2).length = 2 + 1 ∧
      List.Pairwise (· < ·) (reliabilityBins 0 1 2) ∧
      (confidenceDiagramBins 2).length = 2 + 1 ∧
      List.Pairwise (· < ·) (confidenceDiagramBins 2) ∧
      (overUnderBins 2).length = 2 ∧
      List.Pairwise (· < ·) (overUnderBins 2)) :=
  ⟨⟨by norm_num, by norm_num⟩, claim_C3_bin_edges 2 0 1 (by norm_num) (by norm_num)⟩

/-- C7: when no axis limits or class count are supplied, every default floor
is 1 / n_classes with n_classes the number of distinct labels of y:
reliability_diagram uses xlim = [1/n_classes, 1], confidence_diagram plots
over [1/n_classes, 1], and confidence_trajectories starts its threshold grid
at 1/n_classes. -/
theorem claim_C7_default_confidence_floor (y : List ℕ) (steps : ℕ)
    (hy : y ≠ []) (hsteps : 2 ≤ steps) :
    reliability_xlim y none = (1 / (y.dedup.length : ℚ), 1) ∧
    nClassesOf y none = y.dedup.length ∧
    confidence_diagram_range y none = (1 / (y.dedup.length : ℚ), 1) ∧
    (conf_thresholds y none steps).headI = 1 / (y.dedup.length : ℚ) ∧
    y.dedup.Nodup ∧ (∀ a, a ∈ y.dedup ↔ a ∈ y) := by
  refine ⟨rfl, rfl, rfl, ?_, List.nodup_dedup y, fun a => List.mem_dedup⟩
  rw [conf_thresholds]
  exact linspace_headI _ _ _ hsteps

theorem claim_C7_witness :
    (([0, 1, 0] : List ℕ) ≠ [] ∧ 2 ≤ 2) ∧
    (reliability_xlim [0, 1, 0] none = (1 / (([0, 1, 0] : List ℕ).dedup.length : ℚ), 1) ∧
      nClassesOf [0, 1, 0] none = ([0, 1, 0] : List ℕ).dedup.length ∧
      confidence_diagram_range [0, 1, 0] none
        = (1 / (([0, 1, 0] : List ℕ).dedup.length : ℚ), 1) ∧
      (conf_thresholds [0, 1, 0] none 2).headI
        = 1 / (([0, 1, 0] : List ℕ).dedup.length : ℚ) ∧
      ([0, 1, 0] : List ℕ).dedup.Nodup ∧
      (∀ a, a ∈ ([0, 1, 0] : List ℕ).dedup ↔ a ∈ ([0, 1, 0] : List ℕ))) :=
  ⟨⟨by simp, by norm_num⟩, claim_C7_default_confidence_floor [0, 1, 0] 2 (by simp) (by norm_num)⟩

/-- C9: reliability_diagram recomputes the predicted label of every sample as
the argmax of its probability row and bins the maximum of the same row, so
the binned confidence equals the probability the row assigns to the
(recomputed) predicted class; no externally supplied label enters lines
57-58. -/
theorem claim_C9_argmax_confidence (p_pred : List (List ℚ)) (i : ℕ) (row : List ℚ)
    (hrow : p_pred.get? i = some row) (hne : row ≠ []) :
    (yPredList p_pred).get? i = some (npArgmax row) ∧
    (pMaxList p_pred).get? i = some (npMax row) ∧
    row.get? (npArgmax row) = some (npMax row) ∧
    (∀ v ∈ row, v ≤ npMax row) := by
  refine ⟨?_, ?_, get?_npArgmax row hne, le_npMax row⟩
  · rw [yPredList, List.get?_map, hrow]
    rfl
  · rw [pMaxList, List.get?_map, hrow]
    rfl

theorem claim_C9_witness :
    (([[1/4, 3/4]] : List (List ℚ)).get? 0 = some [1/4, 3/4] ∧
      ([1/4, 3/4] : List ℚ) ≠ []) ∧
    ((yPredList [[1/4, 3/4]]).get? 0 = some (npArgmax [1/4, 3/4]) ∧
      (pMaxList [[1/4, 3/4]]).get? 0 = some (npMax [1/4, 3/4]) ∧
      ([1/4, 3/4] : List ℚ).get? (npArgmax [1/4, 3/4]) = some (npMax [1/4, 3/4]) ∧
      (∀ v ∈ ([1/4, 3/4] : List ℚ), v ≤ npMax [1/4, 3/4])) :=
  ⟨⟨rfl, by simp⟩, claim_C9_argmax_confidence [[1/4, 3/4]] 0 [1/4, 3/4] rfl (by simp)⟩

/-- C10: in confidence_trajectories, a threshold strictly below every sorted
confidence takes the guarded branch of index_of_max_element_below_thresh, so
the index is 0 and the trajectory value is the first cumulative mean — the
smallest confidence; and whenever the guard does not fire, the selection
passed to np.argmax is nonempty, so argmax never sees an empty array. -/
theorem claim_C10_threshold_below_min (conf : List ℚ) (t : ℚ)
    (hne : conf ≠ []) (hs : List.Sorted (· ≤ ·) conf) :
    (listMin conf > t →
      index_of_max_element_below_thresh conf t = 0 ∧
      avgConfAt conf t = conf.headI ∧ conf.headI = listMin conf) ∧
    (¬ listMin conf > t → conf.filter (fun x => x ≤ t) ≠ []) := by
  constructor
  · intro hmin
    have hidx : index_of_max_element_below_thresh conf t = 0 := by
      rw [index_of_max_element_below_thresh, if_pos hmin]
    refine ⟨hidx, ?_, sorted_headI_eq_listMin conf hne hs⟩
    obtain ⟨a, xs, rfl⟩ := List.exists_cons_of_ne_nil hne
    rw [avgConfAt, hidx, cummean]
    have hlen : (a :: xs).length = xs.length + 1 := by simp
    rw [hlen, List.range_succ_eq_map]
    simp
  · intro hmin
    have hle : listMin conf ≤ t := not_lt.mp hmin
    apply List.ne_nil_of_mem
    exact List.mem_filter.mpr ⟨listMin_mem conf hne, by simpa using hle⟩

theorem claim_C10_witness :
    (([3/10, 1/2] : List ℚ) ≠ [] ∧ List.Sorted (· ≤ ·) ([3/10, 1/2] : List ℚ)) ∧
    ((listMin [3/10, 1/2] > (1/5 : ℚ) →
      index_of_max_element_below_thresh [3/10, 1/2] (1/5) = 0 ∧
      avgConfAt [3/10, 1/2] (1/5) = ([3/10, 1/2] : List ℚ).headI ∧
      ([3/10, 1/2] : List ℚ).headI = listMin [3/10, 1/2]) ∧
    (¬ listMin [3/10, 1/2] > (1/5 : ℚ) →
      ([3/10, 1/2] : List ℚ).filter (fun x => x ≤ (1/5 : ℚ)) ≠ [])) :=
  ⟨⟨by simp, by norm_num [List.sorted_cons]⟩,
    claim_C10_threshold_below_min [3/10, 1/2] (1/5) (by simp)
      (by norm_num [List.sorted_cons])⟩

/-- C4 (counterexample): on the sorted confidences [1/5, 1/2, 1/2] with
threshold 3/5 (a grid threshold, e.g. of linspace(1/5, 1, 3)), the code
yields cummean at np.argmax's first occurrence of the maximum, (1/5 + 1/2)/2
= 7/20, while the mean over all confidences ≤ 3/5, duplicates of the largest
included, is (1/5 + 1/2 + 1/2)/3 = 2/5. -/
theorem claim_C4_counterexample :
    avgConfAt [1/5, 1/2, 1/2] (3/5) = 7/20 ∧
    meanOfAllBelowThresh [1/5, 1/2, 1/2] (3/5) = 2/5 ∧
    (7/20 : ℚ) ≠ 2/5 := by
  refine ⟨?_, ?_, by norm_num⟩
  · have hidx : index_of_max_element_below_thresh [1/5, 1/2, 1/2] (3/5) = 1 := by
      norm_num [index_of_max_element_below_thresh, listMin, List.filter_cons,
        npArgmax, npMax]
    rw [avgConfAt, hidx]
    norm_num [cummean, List.range_succ, List.getD]
  · norm_num [meanOfAllBelowThresh, List.filter_cons]

/-- C4 (amended): for a sorted confidence array and a threshold admitting at
least one confidence below it, the trajectory value is the running mean up to
the first occurrence of the largest confidence ≤ threshold: the mean of all
confidences strictly below that largest value together with a single copy of
it — duplicates of the largest value beyond the first are excluded. -/
theorem claim_C4_trajectory_running_mean (conf : List ℚ) (t : ℚ)
    (hs : List.Sorted (· ≤ ·) conf) (hne : conf ≠ [])
    (hex : ∃ x ∈ conf, x ≤ t) :
    avgConfAt conf t =
      ((conf.filter (fun x => x < npMax (conf.filter (fun v => v ≤ t)))).sum
          + npMax (conf.filter (fun v => v ≤ t))) /
        (((conf.filter (fun x => x < npMax (conf.filter (fun v => v ≤ t)))).length : ℚ)
          + 1) := by
  set F := conf.filter (fun v => v ≤ t) with hF
  set m := npMax F with hm
  have hFne : F ≠ [] := by
    obtain ⟨x, hx, hxt⟩ := hex
    exact List.ne_nil_of_mem (List.mem_filter.mpr ⟨hx, by simpa using hxt⟩)
  have hFs : List.Sorted (· ≤ ·) F := hs.filter _
  have hmmem : m ∈ F := npMax_mem F hFne
  have hmt : m ≤ t := by
    have := (List.mem_filter.mp hmmem).2
    simpa using this
  have hminle : listMin conf ≤ t := by
    obtain ⟨x, hx, hxt⟩ := hex
    exact le_trans (listMin_le conf x hx) hxt
  have hidx : index_of_max_element_below_thresh conf t = npArgmax F := by
    rw [index_of_max_element_below_thresh, if_neg (not_lt.mpr hminle)]
  have hj : npArgmax F = (F.filter (fun x => x < m)).length :=
    npArgmax_sorted_count F hFne hFs
  have hjlt : (F.filter (fun x => x < m)).length < F.length := by
    rcases lt_or_eq_of_le (List.length_filter_le (fun x => decide (x < m)) F) with h | h
    · exact h
    · exfalso
      have := List.filter_length_eq_length.mp h m hmmem
      simp at this
  have hFlen : F.length ≤ conf.length := List.length_filter_le _ conf
  have hlenc : npArgmax F < conf.length := by omega
  have hgetD : (cummean conf).getD (npArgmax F) 0
      = (conf.take (npArgmax F + 1)).sum / ((npArgmax F : ℚ) + 1) := by
    rw [cummean, List.getD_eq_getElem?_getD, List.getElem?_map,
      List.getElem?_range hlenc]
    rfl
  have htake : conf.take (npArgmax F + 1) = F.take (npArgmax F + 1) := by
    have hb : npArgmax F + 1 ≤ F.length := by
      rw [hj]
      omega
    apply sorted_take_filter_le t conf hs
    rw [← hF]
    exact hb
  have hsplit : F.take (npArgmax F + 1) = F.filter (fun x => x < m) ++ [m] := by
    rw [List.take_succ]
    have h1 : F.take (npArgmax F) = F.filter (fun x => x < m) := by
      rw [hj]
      exact sorted_take_filter_lt_max F hFne hFs
    have h2 : F[npArgmax F]? = some m := by
      rw [← List.get?_eq_getElem?]
      exact get?_npArgmax F hFne
    rw [h1, h2]
    rfl
  have hfe : conf.filter (fun x => x < m) = F.filter (fun x => x < m) := by
    rw [hF, List.filter_filter]
    apply List.filter_congr
    intro a _
    by_cases h : a < m
    · simp [h, le_trans (le_of_lt h) hmt]
    · simp [h]
  rw [avgConfAt, hidx, hgetD, htake, hsplit, List.sum_append, hfe]
  rw [hj]
  simp

theorem claim_C4_witness :
    (List.Sorted (· ≤ ·) ([1/5, 1/2, 1/2] : List ℚ) ∧
      ([1/5, 1/2, 1/2] : List ℚ) ≠ [] ∧
      (∃ x ∈ ([1/5, 1/2, 1/2] : List ℚ), x ≤ (3/5 : ℚ))) ∧
    avgConfAt [1/5, 1/2, 1/2] (3/5) =
      ((([1/5, 1/2, 1/2] : List ℚ).filter
          (fun x => x < npMax (([1/5, 1/2, 1/2] : List ℚ).filter
            (fun v => v ≤ (3/5 : ℚ))))).sum
          + npMax (([1/5, 1/2, 1/2] : List ℚ).filter (fun v => v ≤ (3/5 : ℚ)))) /
        (((([1/5, 1/2, 1/2] : List ℚ).filter
          (fun x => x < npMax (([1/5, 1/2, 1/2] : List ℚ).filter
            (fun v => v ≤ (3/5 : ℚ))))).length : ℚ) + 1) :=
  ⟨⟨by norm_num [List.sorted_cons], by simp, ⟨1/5, by simp, by norm_num⟩⟩,
    claim_C4_trajectory_running_mean [1/5, 1/2, 1/2] (3/5)
      (by norm_num [List.sorted_cons]) (by simp) ⟨1/5, by simp, by norm_num⟩⟩

/-- C5: for a sample set with at least one false and at least one correct
prediction and all max-class confidences within [0, 1], both cumulative
confidence curves of over_underconfidence_curve are (entirely defined)
non-decreasing sequences whose final element is 1. -/
theorem claim_C5_cumulative_curves (y y_pred : List ℕ) (p_pred : List (List ℚ))
    (n_bins : ℕ) (hb : 2 ≤ n_bins)
    (hcf : ∀ x ∈ pMaxList p_pred, 0 ≤ x ∧ x ≤ 1)
    (hfalse : confFalseOf y y_pred p_pred ≠ [])
    (hcorrect : confCorrectOf y y_pred p_pred ≠ []) :
    (∃ l : List ℚ, confFalseCumOf y y_pred p_pred n_bins = l.map some ∧
      List.Chain' (· ≤ ·) l ∧ l.getLast? = some 1) ∧
    (∃ l : List ℚ, confCorrectCumOf y y_pred p_pred n_bins = l.map some ∧
      List.Chain' (· ≤ ·) l ∧ l.getLast? = some 1) := by
  have hm : 0 < n_bins - 1 := by omega
  have hsubf : ∀ v ∈ confFalseOf y y_pred p_pred, 0 ≤ v ∧ v ≤ 1 := by
    intro v hv
    rw [confFalseOf] at hv
    exact hcf v (maskSelect_mem _ _ v hv)
  have hsubc : ∀ v ∈ confCorrectOf y y_pred p_pred, 0 ≤ v ∧ v ≤ 1 := by
    intro v hv
    rw [confCorrectOf] at hv
    exact hcf v (maskSelect_mem _ _ v hv)
  constructor
  · apply cumNormalize_pos
    rw [histCounts_sum_unit (n_bins - 1) hm _ hsubf]
    intro hc
    exact hfalse (List.length_eq_zero.mp hc)
  · apply cumNormalize_pos
    rw [histCounts_sum_unit (n_bins - 1) hm _ hsubc]
    intro hc
    exact hcorrect (List.length_eq_zero.mp hc)

theorem claim_C5_witness :
    (2 ≤ 3 ∧
      (∀ x ∈ pMaxList [[7/10, 3/10], [2/5, 3/5]], 0 ≤ x ∧ x ≤ 1) ∧
      confFalseOf [0, 1] [0, 0] [[7/10, 3/10], [2/5, 3/5]] ≠ [] ∧
      confCorrectOf [0, 1] [0, 0] [[7/10, 3/10], [2/5, 3/5]] ≠ []) ∧
    ((∃ l : List ℚ,
        confFalseCumOf [0, 1] [0, 0] [[7/10, 3/10], [2/5, 3/5]] 3 = l.map some ∧
        List.Chain' (· ≤ ·) l ∧ l.getLast? = some 1) ∧
      (∃ l : List ℚ,
        confCorrectCumOf [0, 1] [0, 0] [[7/10, 3/10], [2/5, 3/5]] 3 = l.map some ∧
        List.Chain' (· ≤ ·) l ∧ l.getLast? = some 1)) := by
  have h1 : pMaxList [[7/10, 3/10], [2/5, 3/5]] = [7/10, 3/5] := by
    norm_num [pMaxList, npMax]
  have h2 : confFalseOf [0, 1] [0, 0] [[7/10, 3/10], [2/5, 3/5]] = [3/5] := by
    norm_num [confFalseOf, maskSelect, predCorrect, h1, List.filter_cons]
  have h3 : confCorrectOf [0, 1] [0, 0] [[7/10, 3/10], [2/5, 3/5]] = [7/10] := by
    norm_num [confCorrectOf, maskSelect, predCorrect, h1, List.filter_cons]
  refine ⟨⟨by norm_num, ?_, ?_, ?_⟩, ?_⟩
  · rw [h1]
    intro x hx
    rcases List.mem_cons.mp hx with rfl | hx
    · norm_num
    · rcases List.mem_singleton.mp hx with rfl
      norm_num
  · rw [h2]
    simp
  · rw [h3]
    simp
  · exact claim_C5_cumulative_curves [0, 1] [0, 0] [[7/10, 3/10], [2/5, 3/5]] 3
      (by norm_num)
      (by
        rw [h1]
        intro x hx
        rcases List.mem_cons.mp hx with rfl | hx
        · norm_num
        · rcases List.mem_singleton.mp hx with rfl
          norm_num)
      (by rw [h2]; simp) (by rw [h3]; simp)

/-- C6: the normalisation divisions are unguarded and produce undefined (NaN,
modelled as `none`) values instead of raising: with every prediction correct
the false-confidence histogram totals 0 and the whole cumulative curve of
over_underconfidence_curve is NaN; likewise the histogram fraction of
reliability_diagram is NaN in every bin when no sample falls inside the
axis range. -/
theorem claim_C6_nan_normalization :
    confFalseCumOf [0, 1] [0, 1] [[9/10, 1/10], [1/5, 4/5]] 4
      = [none, none, none] ∧
    reliabilityHistFrac (4/5) 1 2 [[3/10, 7/10]] = [none, none] := by
  have h1 : pMaxList [[9/10, 1/10], [1/5, 4/5]] = [9/10, 4/5] := by
    norm_num [pMaxList, npMax]
  have h2 : confFalseOf [0, 1] [0, 1] [[9/10, 1/10], [1/5, 4/5]] = [] := by
    norm_num [confFalseOf, maskSelect, predCorrect, h1, List.filter_cons]
  constructor
  · rw [confFalseCumOf, h2]
    rw [show histCounts 0 1 (4 - 1) [] = [0, 0, 0] by
      norm_num [histCounts, List.range_succ]]
    norm_num [cumNormalize, cumsumN, List.range_succ]
  · have h3 : pMaxList [[3/10, 7/10]] = [7/10] := by norm_num [pMaxList, npMax]
    have h4 : binIdx (4/5) 1 2 (7/10) = none := by
      apply binIdx_none_of_out
      left
      norm_num
    rw [reliabilityHistFrac, h3]
    rw [show (List.range 2).map
        (fun i => (([(7:ℚ)/10].filter (fun x => binIdx (4/5) 1 2 x = some i)).length))
        = [0, 0] by norm_num [List.range_succ, List.filter_cons, h4] <;> simp]
    norm_num

/-- C8 (counterexample): at t = 1/2 the smooth-maximum curve converges to
max(1/2, 1/2) = 1/2, not to 1.0, so the claim that it approaches 1.0 for
every fixed t in (0, 1) fails. -/
theorem claim_C8_counterexample :
    ¬ Filter.Tendsto (fun N => lsecurve (1/2) N) Filter.atTop (nhds 1) := by
  intro hcon
  have h2 := lsecurve_tendsto_max (1/2)
  have hmax : max (1 - (1/2 : ℝ)) (1/2) = 1/2 := by norm_num
  rw [hmax] at h2
  have := tendsto_nhds_unique hcon h2
  norm_num at this

/-- C8 (amended): for every fixed t in (0, 1), logsumexp([1 - t, t], N)
approaches the true maximum of its two inputs, max(1 - t, t), as the
sharpness N grows — a limit that is strictly below 1.0 throughout (0, 1). -/
theorem claim_C8_logsumexp_limit (t : ℝ) (h0 : 0 < t) (h1 : t < 1) :
    Filter.Tendsto (fun N => lsecurve t N) Filter.atTop
      (nhds (max (1 - t) t)) ∧ max (1 - t) t < 1 := by
  refine ⟨lsecurve_tendsto_max t, ?_⟩
  rw [max_lt_iff]
  constructor <;> linarith

theorem claim_C8_witness :
    (0 < (1/2 : ℝ) ∧ (1/2 : ℝ) < 1) ∧
    (Filter.Tendsto (fun N => lsecurve (1/2) N) Filter.atTop
      (nhds (max (1 - (1/2 : ℝ)) (1/2))) ∧ max (1 - (1/2 : ℝ)) (1/2) < 1) :=
  ⟨⟨by norm_num, by norm_num⟩,
    claim_C8_logsumexp_limit (1/2) (by norm_num) (by norm_num)⟩
